import Mathlib

set_option maxHeartbeats 1000000

/-!
Verification development for the app-generator pipeline: markdown code-block
extraction, registry persistence, assistant-gateway result handling, the
execution dispatcher, artifact materialization and the refinement flow.
All definitions are shallow embeddings of the Python source in
`app_generator.py` (primary variant) and `App Generator/app_generator.py`
(legacy variant).
-/

/-! ### Character classes

Python regular expressions over the relevant ASCII inputs: `\s` is one of
space, tab, newline, carriage return, vertical tab, form feed; `\w` is a
letter, digit or underscore (the model restricts to the ASCII range, which
covers every input the program manipulates here).
-/

/-- Backtick character (written numerically, used pervasively for fences). -/
def bq : Char := Char.ofNat 96

/-- Newline character. -/
def nl : Char := Char.ofNat 10

/-- Triple backtick, the markdown fence delimiter. -/
def tq : List Char := [bq, bq, bq]

/-- Python `\s` on ASCII input. -/
def isWs (c : Char) : Bool :=
  c = Char.ofNat 32 || c = Char.ofNat 9 || c = Char.ofNat 10 ||
  c = Char.ofNat 13 || c = Char.ofNat 11 || c = Char.ofNat 12

/-- Python `\w` on ASCII input. -/
def isWord (c : Char) : Bool := c.isAlpha || c.isDigit || c = Char.ofNat 95

/-- Python `str.strip()`: remove leading and trailing whitespace. -/
def stripL (s : List Char) : List Char :=
  ((s.dropWhile isWs).reverse.dropWhile isWs).reverse

/-- Python `str.strip()` lifted to `String`. -/
def pyStrip (s : String) : String := (stripL s.data).asString

/-! ### The fence regex

`extract_code_blocks` runs `re.findall` with pattern
`` ```\s*(\w+)?\s*\n(.*?)``` `` under `re.DOTALL`.  The model below mirrors
the backtracking search of the Python engine: at a match position the three
literal backticks are consumed, then the open-fence part
`\s*(\w+)?\s*\n` is tried with the engine's preference order (greedy `\s*`,
the optional word group preferring the longest word over absence), and for
each candidate the lazy `(.*?)` group extends to the closest following
triple backtick.  `findall` scans left to right and resumes after each
match.
-/

/-- True when the list starts with a triple backtick. -/
def startsTriple : List Char → Bool
  | a :: b :: c :: _ => a = bq && b = bq && c = bq
  | _ => false

/-- Lazy tail match for `(.*?)` followed by the closing triple backtick:
returns the shortest prefix up to a fence together with what follows the
fence. -/
def takeToFence : List Char → Option (List Char × List Char)
  | [] => none
  | c :: rest =>
    if startsTriple (c :: rest) then some ([], rest.drop 2)
    else
      match takeToFence rest with
      | some (pre, post) => some (c :: pre, post)
      | none => none

/-- Candidates for the trailing `\s*\n` of the open fence, in the engine's
preference order (the greedy `\s*` consumes as much as possible first).
Each candidate carries the already-fixed tag and the input remaining after
the mandatory newline. -/
def innerCands (tag : List Char) (s2 : List Char) : List (List Char × List Char) :=
  (List.range ((s2.takeWhile isWs).length + 1)).reverse.filterMap fun c =>
    if (s2.drop c).head? = some nl then some (tag, s2.drop (c + 1)) else none

/-- Candidates for the whole open-fence part `\s*(\w+)?\s*\n` (after the
three literal backticks), in the engine's preference order: the leading
greedy `\s*` from longest to shortest; inside, the optional word group
first with the longest word down to one character, then absent. -/
def openCandidates (cs : List Char) : List (List Char × List Char) :=
  (List.range ((cs.takeWhile isWs).length + 1)).reverse.flatMap fun a =>
    ((List.range (((cs.drop a).takeWhile isWord).length)).reverse.map (· + 1)).flatMap
      (fun b => innerCands ((cs.drop a).take b) ((cs.drop a).drop b)) ++
      innerCands [] (cs.drop a)

/-- Full match of the fence pattern immediately after the three opening
backticks: the first open-fence candidate whose lazy tail also finds a
closing fence wins, yielding the two capture groups and the input
remaining after the match. -/
def matchFenceAfter (cs : List Char) : Option ((List Char × List Char) × List Char) :=
  (openCandidates cs).findSome? fun p =>
    (takeToFence p.2).map fun q => ((p.1, q.1), q.2)

/-- The `re.findall` scan: try a match at each position, resume after each
match.  Fuel is the remaining input length; every step consumes at least
one character, so `scanAux l.length l` is the total scan. -/
def scanAux : Nat → List Char → List (List Char × List Char)
  | 0, _ => []
  | _ + 1, [] => []
  | fuel + 1, c :: rest =>
    if startsTriple (c :: rest) then
      match matchFenceAfter (rest.drop 2) with
      | some (pr, rest2) => pr :: scanAux fuel rest2
      | none => scanAux fuel rest
    else scanAux fuel rest

/-- All raw matches of the fence pattern, in document order. -/
def pyScan (cs : List Char) : List (List Char × List Char) := scanAux cs.length cs

/-- Embedding of `extract_code_blocks` (`app_generator.py`, lines 70-80):
all fenced code blocks of a markdown text as `(language, code)` pairs,
both components stripped. -/
def extract_code_blocks (s : String) : List (String × String) :=
  (pyScan s.data).map fun p => ((stripL p.1).asString, (stripL p.2).asString)

/-! ### Registry store

`load_apps_registry` / `save_apps_registry` / `add_app_to_registry`
(`app_generator.py`, lines 43-68).  The persisted file is modelled by its
three observable states: absent, present but unparseable, or a parsed list
of records.  `json.load` and `json.dump` on the registry's record shape are
mutually inverse, so a stored state round-trips to its record list.
-/

/-- One application record, with the exact fields written by
`add_app_to_registry`. -/
structure AppEntry where
  id : String
  name : String
  description : String
  language : String
  path : String
  features : List String
  created_at : String
deriving DecidableEq

/-- Observable states of the `apps_registry.json` file. -/
inductive RegFile
  | absent
  | corrupt (raw : String)
  | stored (reg : List AppEntry)
deriving DecidableEq

/-- Embedding of `load_apps_registry` (lines 43-50): an absent file or a
`json.load` failure yields the empty registry; the function never raises. -/
def load_apps_registry : RegFile → List AppEntry
  | .absent => []
  | .corrupt _ => []
  | .stored r => r

/-- Embedding of `save_apps_registry` (lines 52-54): rewrite the whole
file with the given record list. -/
def save_apps_registry (reg : List AppEntry) : RegFile := .stored reg

/-- Embedding of `add_app_to_registry` (lines 56-68).  `abspath` stands for
`os.path.abspath`, `now` for the formatted `datetime.datetime.now()`;
`features` is `None` or a list, defaulted by `features or []`. -/
def add_app_to_registry (abspath : String → String) (f : RegFile)
    (name description language path : String) (features : Option (List String))
    (now : String) : RegFile :=
  let registry := load_apps_registry f
  let app_entry : AppEntry :=
    { id := Nat.repr (registry.length + 1)
      name := name
      description := description
      language := language
      path := abspath path
      features := features.getD []
      created_at := now }
  save_apps_registry (registry ++ [app_entry])

/-! ### Assistant gateway

`get_copilot_suggestion` (`app_generator.py`, lines 276-295): only the
handling of the completed subprocess is modelled; the prompt construction
above it does not influence the returned value's shape.
-/

/-- Outcome of `subprocess.run` for the gateway call: the process completed
with a status and captured streams, or the invocation raised. -/
inductive ProcOutcome
  | completed (returncode : Int) (stdout stderr : String)
  | failed (err : String)
deriving DecidableEq

/-- Embedding of the result handling of `get_copilot_suggestion`
(lines 279-295): status zero with nonempty stripped stdout returns the
stripped stdout; otherwise a nonempty stripped stderr returns a plain
string prefixed `Error/Message: `; otherwise `None`; a launch failure
returns a plain string prefixed `Execution Error: `. -/
def get_copilot_suggestion : ProcOutcome → Option String
  | .completed rc out err =>
    if rc = 0 ∧ pyStrip out ≠ "" then some (pyStrip out)
    else if pyStrip err ≠ "" then some ("Error/Message: " ++ pyStrip err)
    else none
  | .failed e => some ("Execution Error: " ++ e)

/-! ### Well-formed markdown documents

A document alternates plain text and fenced blocks.  `renderDoc` produces
the markdown text; well-formedness captures the blocks the extractor's
grammar parses as written: plain text carries no backtick, code carries no
triple backtick, and a block is either tagged with a nonempty `\w+` word or
untagged with a body whose first line is not a bare word (the regex would
otherwise capture that word as the tag).
-/

/-- One fenced markdown block: declared tag (possibly empty) and body. -/
structure MdBlock where
  tag : List Char
  code : List Char
deriving DecidableEq

/-- The characters between the opening fence's newline and the closing
fence: the body wrapped by the two mandatory newlines' worth of context. -/
def fenceBody (code : List Char) : List Char := nl :: (code ++ [nl])

/-- Render one block with its fences. -/
def renderBlock (b : MdBlock) : List Char :=
  tq ++ (b.tag ++ (fenceBody b.code ++ tq))

/-- Render a document: alternating plain-text/block segments then a final
plain-text tail. -/
def renderDoc : List (List Char × MdBlock) → List Char → List Char
  | [], t => t
  | (txt, b) :: rest, t => txt ++ (renderBlock b ++ renderDoc rest t)

/-- True when a triple backtick occurs anywhere in the list. -/
def hasTriple : List Char → Bool
  | [] => false
  | c :: rest => startsTriple (c :: rest) || hasTriple rest

/-- An untagged body is unambiguous when, after the opening fence, the
regex's optional `(\w+)` group cannot fire: either no word starts at the
first non-whitespace character, or that word is not followed by whitespace
containing a newline. -/
def untaggedOk (code : List Char) : Bool :=
  let d := (fenceBody code).dropWhile isWs
  let r := (d.takeWhile isWord).length
  decide (r = 0) || !(((d.drop r).takeWhile isWs).any fun c => c == nl)

/-- Well-formedness of one text/block segment. -/
def wfSeg : List Char × MdBlock → Prop
  | (txt, b) =>
    (∀ c ∈ txt, c ≠ bq) ∧ hasTriple b.code = false ∧
      ((b.tag ≠ [] ∧ ∀ c ∈ b.tag, isWord c = true) ∨
        (b.tag = [] ∧ untaggedOk b.code = true))

/-- Well-formedness of a whole document. -/
def wfDoc (segs : List (List Char × MdBlock)) (t : List Char) : Prop :=
  (∀ s ∈ segs, wfSeg s) ∧ ∀ c ∈ t, c ≠ bq

/-! ### Character-class facts -/

theorem ws_not_word {c : Char} (h : isWs c = true) : isWord c = false := by
  simp only [isWs, Bool.or_eq_true, decide_eq_true_eq] at h
  rcases h with ((((h | h) | h) | h) | h) | h <;> subst h <;> decide

theorem word_not_ws {c : Char} (h : isWord c = true) : isWs c = false := by
  cases hw : isWs c
  · rfl
  · rw [ws_not_word hw] at h; cases h

theorem isWs_nl : isWs nl = true := by decide

theorem isWord_nl : isWord nl = false := by decide

theorem isWs_bq : isWs bq = false := by decide

theorem isWord_bq : isWord bq = false := by decide

theorem nl_ne_bq : nl ≠ bq := by decide

/-! ### List toolbox -/

theorem takeWhile_append_of_neg {p : Char → Bool} {b : Char} (hb : p b = false) :
    ∀ (A B : List Char), ((A ++ (b :: B)).takeWhile p) = A.takeWhile p := by
  intro A B
  induction A with
  | nil => simp [List.takeWhile_cons, hb]
  | cons a A ih => by_cases h : p a <;> simp [List.takeWhile_cons, h, ih]

theorem dropWhile_append_of_neg {p : Char → Bool} {b : Char} (hb : p b = false) :
    ∀ (A B : List Char), ((A ++ (b :: B)).dropWhile p) = A.dropWhile p ++ (b :: B) := by
  intro A B
  induction A with
  | nil => simp [List.dropWhile_cons, hb]
  | cons a A ih => by_cases h : p a <;> simp [List.dropWhile_cons, h, ih]

theorem takeWhile_eq_self_of_all {p : Char → Bool} :
    ∀ {A : List Char}, (∀ c ∈ A, p c = true) → A.takeWhile p = A := by
  intro A h
  induction A with
  | nil => rfl
  | cons a A ih =>
    have ha := h a (List.mem_cons_self a A)
    simp [List.takeWhile_cons, ha, ih fun c hc => h c (List.mem_cons_of_mem a hc)]

theorem takeWhile_append_of_all {p : Char → Bool} :
    ∀ {A : List Char}, (∀ c ∈ A, p c = true) →
      ∀ B, ((A ++ B).takeWhile p) = A ++ B.takeWhile p := by
  intro A h
  induction A with
  | nil => intro B; rfl
  | cons a A ih =>
    intro B
    have ha := h a (List.mem_cons_self a A)
    simp [List.takeWhile_cons, ha]
    exact ih (fun c hc => h c (List.mem_cons_of_mem a hc)) B

theorem dropWhile_cons_head {p : Char → Bool} :
    ∀ (l : List Char) {x : Char} {r : List Char}, l.dropWhile p = x :: r → p x = false := by
  intro l
  induction l with
  | nil => intro x r h; cases h
  | cons a l ih =>
    intro x r h
    cases hpa : p a
    · simp only [List.dropWhile_cons, hpa, Bool.false_eq_true, if_false] at h
      obtain ⟨rfl, rfl⟩ := List.cons.injEq .. ▸ h
      exact hpa
    · simp only [List.dropWhile_cons, hpa, if_true] at h
      exact ih h

theorem all_of_le_takeWhile {p : Char → Bool} :
    ∀ (l : List Char) (c : Nat), c ≤ (l.takeWhile p).length →
      ∀ x ∈ l.take c, p x = true := by
  intro l
  induction l with
  | nil => intro c _ x hx; simp at hx
  | cons a l ih =>
    intro c hc x hx
    cases c with
    | zero => simp at hx
    | succ c =>
      by_cases ha : p a
      · rw [List.takeWhile_cons, if_pos ha] at hc
        simp only [List.length_cons, Nat.succ_le_succ_iff] at hc
        rw [List.take_succ_cons] at hx
        rcases List.mem_cons.mp hx with rfl | hx
        · exact ha
        · exact ih c hc x hx
      · rw [List.takeWhile_cons, if_neg ha] at hc
        simp at hc

theorem startsTriple_false_of_head {c : Char} (hc : c ≠ bq) (l : List Char) :
    startsTriple (c :: l) = false := by
  match l with
  | [] => rfl
  | [x] => rfl
  | x :: y :: r => simp [startsTriple, hc]

theorem startsTriple_cons3 (a b c : Char) (t : List Char) :
    startsTriple (a :: b :: c :: t) = startsTriple [a, b, c] := rfl

theorem hasTriple_drop_false {l : List Char} (h : hasTriple l = false) :
    ∀ n, hasTriple (l.drop n) = false := by
  induction l with
  | nil => intro n; simp [List.drop_nil, hasTriple]
  | cons a l ih =>
    intro n
    rw [hasTriple, Bool.or_eq_false_iff] at h
    cases n with
    | zero => rw [List.drop_zero, hasTriple, h.1, h.2]; rfl
    | succ n => exact ih h.2 n

theorem getLast?_drop_of_lt {l : List Char} :
    ∀ {n : Nat}, n < l.length → (l.drop n).getLast? = l.getLast? := by
  induction l with
  | nil => intro n h; simp at h
  | cons a l ih =>
    intro n h
    cases n with
    | zero => rfl
    | succ n =>
      simp only [List.length_cons, Nat.succ_lt_succ_iff] at h
      rw [List.drop_succ_cons, ih h]
      cases hl : l with
      | nil => rw [hl] at h; simp at h
      | cons b t => simp [List.getLast?_cons_cons]

theorem takeToFence_append {Y : List Char} (hY : hasTriple Y = false)
    (hlast : Y.getLast? ≠ some bq) (R : List Char) :
    takeToFence (Y ++ (tq ++ R)) = some (Y, R) := by
  induction Y with
  | nil => simp [takeToFence, tq, startsTriple, List.drop]
  | cons y Y ih =>
    rw [hasTriple, Bool.or_eq_false_iff] at hY
    have hlast' : Y.getLast? ≠ some bq := by
      cases hYn : Y with
      | nil => simp
      | cons b t => rw [hYn, List.getLast?_cons_cons] at hlast; exact hlast
    have hstep : startsTriple (y :: (Y ++ (tq ++ R))) = false := by
      cases Y with
      | nil =>
        have hy : y ≠ bq := fun h => hlast (by simp [List.getLast?, h])
        exact startsTriple_false_of_head hy _
      | cons b t =>
        cases t with
        | nil =>
          have hb : b ≠ bq := fun h => hlast' (by simp [List.getLast?, h])
          simp [tq, startsTriple, hb]
        | cons u v =>
          have h1 := hY.1
          rw [startsTriple_cons3] at h1
          rw [List.cons_append, List.cons_append, startsTriple_cons3]
          exact h1
    rw [List.cons_append, takeToFence, if_neg (by simp [hstep]), ih hY.2 hlast']

theorem stripL_cons_ws {a : Char} (ha : isWs a = true) (l : List Char) :
    stripL (a :: l) = stripL l := by
  simp [stripL, List.dropWhile_cons, ha]

theorem stripL_concat_ws {z : Char} (hz : isWs z = true) :
    ∀ (l : List Char), stripL (l ++ [z]) = stripL l := by
  intro l
  induction l with
  | nil => simp [stripL, List.dropWhile_cons, hz, List.dropWhile_nil]
  | cons a l ih =>
    cases ha : isWs a
    · have h1 : (a :: l ++ [z]).dropWhile isWs = a :: (l ++ [z]) := by
        simp [List.dropWhile_cons, ha]
      have h2 : (a :: l).dropWhile isWs = a :: l := by
        simp [List.dropWhile_cons, ha]
      rw [stripL, h1, stripL, h2]
      have : (a :: (l ++ [z])).reverse = z :: (a :: l).reverse := by
        simp
      rw [this, List.dropWhile_cons, if_pos (by simp [hz])]
    · rw [List.cons_append, stripL_cons_ws ha, stripL_cons_ws ha, ih]

theorem stripL_drop_of_ws_take :
    ∀ (l : List Char) (n : Nat), (∀ x ∈ l.take n, isWs x = true) →
      stripL (l.drop n) = stripL l := by
  intro l
  induction l with
  | nil => intro n _; simp [List.drop_nil]
  | cons a l ih =>
    intro n h
    cases n with
    | zero => rfl
    | succ n =>
      have ha : isWs a = true := h a (by simp)
      rw [List.drop_succ_cons, stripL_cons_ws ha,
        ih n fun x hx => h x (by rw [List.take_succ_cons]; exact List.mem_cons_of_mem a hx)]

theorem stripL_fenceBody (code : List Char) : stripL (fenceBody code) = stripL code := by
  rw [fenceBody, stripL_cons_ws isWs_nl, stripL_concat_ws isWs_nl]

theorem takeWhile_nil_of_head_neg {p : Char → Bool} {x : Char} (hx : p x = false)
    (l : List Char) : (x :: l).takeWhile p = [] := by
  simp [List.takeWhile_cons, hx]

theorem takeWhile_len_le {p : Char → Bool} : ∀ (l : List Char),
    (l.takeWhile p).length ≤ l.length := by
  intro l
  induction l with
  | nil => simp
  | cons a l ih =>
    cases ha : p a
    · simp [List.takeWhile_cons, ha]
    · simp only [List.takeWhile_cons, ha, if_true, List.length_cons]
      omega

theorem takeWhile_dropWhile_nil {p : Char → Bool} (l : List Char) :
    (l.dropWhile p).takeWhile p = [] := by
  cases hd : l.dropWhile p with
  | nil => rfl
  | cons x r => exact takeWhile_nil_of_head_neg (dropWhile_cons_head l hd) r

theorem drop_takeWhile_eq {p : Char → Bool} {l : List Char} {a : Nat}
    (ha : a ≤ (l.takeWhile p).length) :
    (l.drop a).takeWhile p = (l.takeWhile p).drop a := by
  conv_lhs => rw [← List.takeWhile_append_dropWhile (p := p) (l := l)]
  rw [List.drop_append_eq_append_drop, Nat.sub_eq_zero_of_le ha, List.drop_zero,
    takeWhile_append_of_all
      (fun x hx => List.mem_takeWhile_imp (List.mem_of_mem_drop hx)) _,
    takeWhile_dropWhile_nil, List.append_nil]

theorem takeWhile_cons_head {p : Char → Bool} {m : List Char} {y : Char} {ys : List Char}
    (h : m.takeWhile p = y :: ys) : m.head? = some y ∧ p y = true := by
  cases m with
  | nil => cases h
  | cons z m =>
    cases hz : p z
    · rw [List.takeWhile_cons, hz] at h; simp at h
    · rw [List.takeWhile_cons, hz] at h
      simp only [if_true] at h
      obtain ⟨rfl, -⟩ := List.cons.injEq .. ▸ h
      exact ⟨rfl, hz⟩

theorem head_drop_spec {p : Char → Bool} {l : List Char} {c : Nat} {x : Char}
    (hc : c ≤ (l.takeWhile p).length) (hx : (l.drop c).head? = some x) :
    (c < (l.takeWhile p).length ∧ x ∈ l.takeWhile p ∧ p x = true) ∨
      (c = (l.takeWhile p).length ∧ p x = false) := by
  rcases Nat.lt_or_ge c (l.takeWhile p).length with hlt | hge
  · left
    have htw := drop_takeWhile_eq (l := l) (p := p) (Nat.le_of_lt hlt)
    rw [List.drop_eq_getElem_cons hlt] at htw
    obtain ⟨hhd, hpy⟩ := takeWhile_cons_head htw
    rw [hx] at hhd
    obtain rfl := Option.some.inj hhd
    exact ⟨hlt, List.getElem_mem hlt, hpy⟩
  · right
    have hceq : c = (l.takeWhile p).length := Nat.le_antisymm hc hge
    have hdl : l.drop c = l.dropWhile p := by
      conv_lhs => rw [← List.takeWhile_append_dropWhile (p := p) (l := l)]
      rw [hceq, List.drop_left]
    rw [hdl] at hx
    cases hd : l.dropWhile p with
    | nil => rw [hd] at hx; cases hx
    | cons z r =>
      rw [hd] at hx
      obtain rfl := Option.some.inj hx
      exact ⟨hceq, dropWhile_cons_head l hd⟩

theorem hasTriple_concat_false {x : Char} (hx : x ≠ bq) :
    ∀ {A : List Char}, hasTriple A = false → hasTriple (A ++ [x]) = false := by
  intro A
  induction A with
  | nil => intro _; rfl
  | cons a A ih =>
    intro h
    rw [hasTriple, Bool.or_eq_false_iff] at h
    rw [List.cons_append, hasTriple, Bool.or_eq_false_iff]
    refine ⟨?_, ih h.2⟩
    cases A with
    | nil => simp [startsTriple, hx]
    | cons b t =>
      cases t with
      | nil => simp [startsTriple, hx]
      | cons u v =>
        rw [List.cons_append, List.cons_append, startsTriple_cons3]
        rw [startsTriple_cons3] at h
        exact h.1

theorem hasTriple_fenceBody {code : List Char} (h : hasTriple code = false) :
    hasTriple (fenceBody code) = false := by
  rw [fenceBody, hasTriple, Bool.or_eq_false_iff]
  exact ⟨startsTriple_false_of_head nl_ne_bq _, hasTriple_concat_false nl_ne_bq h⟩

theorem takeWhile_append_tq {p : Char → Bool} (hp : p bq = false) (X R : List Char) :
    (X ++ (tq ++ R)).takeWhile p = X.takeWhile p := by
  have h : X ++ (tq ++ R) = X ++ (bq :: (bq :: bq :: R)) := by simp [tq]
  rw [h, takeWhile_append_of_neg hp]

theorem dropWhile_append_tq {p : Char → Bool} (hp : p bq = false) (X R : List Char) :
    (X ++ (tq ++ R)).dropWhile p = X.dropWhile p ++ (tq ++ R) := by
  have h : X ++ (tq ++ R) = X ++ (bq :: (bq :: bq :: R)) := by simp [tq]
  rw [h, dropWhile_append_of_neg hp]
  simp [tq]

theorem mem_innerCands {tag s2 : List Char} {p : List Char × List Char}
    (h : p ∈ innerCands tag s2) :
    p.1 = tag ∧ ∃ c, c ≤ (s2.takeWhile isWs).length ∧
      (s2.drop c).head? = some nl ∧ p.2 = s2.drop (c + 1) := by
  rw [innerCands] at h
  obtain ⟨c, hc, hG⟩ := List.mem_filterMap.mp h
  have hcle : c ≤ (s2.takeWhile isWs).length :=
    Nat.lt_succ_iff.mp (List.mem_range.mp (List.mem_reverse.mp hc))
  by_cases hx : (s2.drop c).head? = some nl
  · rw [if_pos hx] at hG
    obtain rfl := Option.some.inj hG
    exact ⟨rfl, c, hcle, hx, rfl⟩
  · rw [if_neg hx] at hG; cases hG

theorem self_mem_innerCands (tag : List Char) {s2 : List Char}
    (h : s2.head? = some nl) : (tag, s2.drop 1) ∈ innerCands tag s2 := by
  rw [innerCands]
  refine List.mem_filterMap.mpr ⟨0, ?_, ?_⟩
  · rw [List.mem_reverse, List.mem_range]; omega
  · rw [List.drop_zero, if_pos h]

theorem mem_openCandidates {cs : List Char} {p : List Char × List Char}
    (h : p ∈ openCandidates cs) :
    ∃ a, a ≤ (cs.takeWhile isWs).length ∧
      ((∃ b, 1 ≤ b ∧ b ≤ ((cs.drop a).takeWhile isWord).length ∧
          p ∈ innerCands ((cs.drop a).take b) ((cs.drop a).drop b)) ∨
        p ∈ innerCands [] (cs.drop a)) := by
  rw [openCandidates] at h
  obtain ⟨a, ha, hp⟩ := List.mem_flatMap.mp h
  have hale : a ≤ (cs.takeWhile isWs).length :=
    Nat.lt_succ_iff.mp (List.mem_range.mp (List.mem_reverse.mp ha))
  refine ⟨a, hale, ?_⟩
  rcases List.mem_append.mp hp with hw | hn
  · obtain ⟨b, hb, hpb⟩ := List.mem_flatMap.mp hw
    obtain ⟨k, hk, rfl⟩ := List.mem_map.mp hb
    have hkr := List.mem_range.mp (List.mem_reverse.mp hk)
    exact Or.inl ⟨k + 1, by omega, by omega, hpb⟩
  · exact Or.inr hn

theorem findSome?_of_all {α β : Type} (F : α → Option β) (P : β → Prop)
    (l : List α) (hall : ∀ p ∈ l, ∃ v, F p = some v ∧ P v) (hne : l ≠ []) :
    ∃ v, l.findSome? F = some v ∧ P v := by
  cases l with
  | nil => exact absurd rfl hne
  | cons p rest =>
    obtain ⟨v, hv, hp⟩ := hall p (List.mem_cons_self p rest)
    refine ⟨v, ?_, hp⟩
    rw [List.findSome?_cons, hv]

theorem fence_tail_good {code : List Char} (R : List Char) (hT : hasTriple code = false)
    {k : Nat} (hk : k + 1 ≤ ((fenceBody code).takeWhile isWs).length) :
    takeToFence ((fenceBody code).drop (k + 1) ++ (tq ++ R)) =
      some ((fenceBody code).drop (k + 1), R) ∧
    stripL ((fenceBody code).drop (k + 1)) = stripL code := by
  have hX : hasTriple (fenceBody code) = false := hasTriple_fenceBody hT
  constructor
  · apply takeToFence_append (hasTriple_drop_false hX (k + 1))
    rcases Nat.lt_or_ge (k + 1) (fenceBody code).length with hlt | hge
    · rw [getLast?_drop_of_lt hlt]
      have hfb : fenceBody code = (nl :: code) ++ [nl] := by simp [fenceBody]
      rw [hfb, List.getLast?_concat]
      intro hc
      exact nl_ne_bq (Option.some.inj hc)
    · rw [List.drop_eq_nil_of_le hge]
      simp
  · rw [stripL_drop_of_ws_take _ _ (all_of_le_takeWhile _ _ hk), stripL_fenceBody]

theorem takeWhile_word_render {tg : List Char} (hw : ∀ c ∈ tg, isWord c = true)
    (code R : List Char) :
    (tg ++ (fenceBody code ++ (tq ++ R))).takeWhile isWord = tg := by
  have hX : fenceBody code ++ (tq ++ R) = nl :: ((code ++ [nl]) ++ (tq ++ R)) := by
    simp [fenceBody]
  rw [hX, takeWhile_append_of_all hw, takeWhile_nil_of_head_neg isWord_nl, List.append_nil]

theorem fence_head (code R : List Char) : (fenceBody code ++ (tq ++ R)).head? = some nl := by
  simp [fenceBody]

theorem open_good_tagged {tg code : List Char} (R : List Char)
    (htg : tg ≠ []) (hw : ∀ c ∈ tg, isWord c = true)
    {p : List Char × List Char}
    (hp : p ∈ openCandidates (tg ++ (fenceBody code ++ (tq ++ R)))) :
    p.1 = tg ∧ ∃ k, k + 1 ≤ ((fenceBody code).takeWhile isWs).length ∧
      p.2 = (fenceBody code).drop (k + 1) ++ (tq ++ R) := by
  obtain ⟨t0, tl, rfl⟩ := List.exists_cons_of_ne_nil htg
  have hws0 : isWs t0 = false := word_not_ws (hw t0 (List.mem_cons_self t0 tl))
  have h0 : ((t0 :: tl) ++ (fenceBody code ++ (tq ++ R))).takeWhile isWs = [] := by
    rw [List.cons_append]
    exact takeWhile_nil_of_head_neg hws0 _
  obtain ⟨a, ha, hcases⟩ := mem_openCandidates hp
  rw [h0] at ha
  have ha0 : a = 0 := Nat.le_zero.mp (by simpa using ha)
  subst ha0
  rw [List.drop_zero] at hcases
  have hword := takeWhile_word_render hw code R
  rcases hcases with ⟨b, hb1, hb2, hpb⟩ | hn
  · rw [hword] at hb2
    rcases Nat.lt_or_ge b (t0 :: tl).length with hblt | hbge
    · exfalso
      obtain ⟨-, c, hcle, hhd, -⟩ := mem_innerCands hpb
      have hdropb : ((t0 :: tl) ++ (fenceBody code ++ (tq ++ R))).drop b =
          (t0 :: tl)[b] :: ((t0 :: tl).drop (b + 1) ++ (fenceBody code ++ (tq ++ R))) := by
        rw [List.drop_append_eq_append_drop, Nat.sub_eq_zero_of_le (le_of_lt hblt),
          List.drop_zero, List.drop_eq_getElem_cons hblt, List.cons_append]
      have hwb : isWord (t0 :: tl)[b] = true := hw _ (List.getElem_mem hblt)
      rw [hdropb, takeWhile_nil_of_head_neg (word_not_ws hwb)] at hcle
      have hc0 : c = 0 := Nat.le_zero.mp (by simpa using hcle)
      subst hc0
      rw [List.drop_zero, hdropb] at hhd
      have hnl : (t0 :: tl)[b] = nl := Option.some.inj hhd
      rw [hnl, isWord_nl] at hwb
      cases hwb
    · have hbeq : b = (t0 :: tl).length := Nat.le_antisymm hb2 hbge
      subst hbeq
      rw [List.take_left, List.drop_left] at hpb
      obtain ⟨hp1, c, hcle, hhd, hp2⟩ := mem_innerCands hpb
      rcases head_drop_spec hcle hhd with ⟨hclt, -, -⟩ | ⟨-, hws⟩
      · refine ⟨hp1, c, ?_, ?_⟩
        · rw [takeWhile_append_tq isWs_bq] at hclt
          omega
        · rw [hp2, List.drop_append_eq_append_drop, Nat.sub_eq_zero_of_le, List.drop_zero]
          have hmX : ((fenceBody code ++ (tq ++ R)).takeWhile isWs).length ≤
              (fenceBody code).length := by
            rw [takeWhile_append_tq isWs_bq]
            exact takeWhile_len_le _
          omega
      · rw [isWs_nl] at hws; cases hws
  · exfalso
    obtain ⟨-, c, hcle, hhd, -⟩ := mem_innerCands hn
    rw [h0] at hcle
    have hc0 : c = 0 := Nat.le_zero.mp (by simpa using hcle)
    subst hc0
    rw [List.drop_zero, List.cons_append] at hhd
    have hnl : t0 = nl := Option.some.inj hhd
    have := hw t0 (List.mem_cons_self t0 tl)
    rw [hnl, isWord_nl] at this
    cases this

theorem open_good_untagged {code : List Char} (R : List Char)
    (hok : untaggedOk code = true)
    {p : List Char × List Char}
    (hp : p ∈ openCandidates (fenceBody code ++ (tq ++ R))) :
    p.1 = [] ∧ ∃ k, k + 1 ≤ ((fenceBody code).takeWhile isWs).length ∧
      p.2 = (fenceBody code).drop (k + 1) ++ (tq ++ R) := by
  have hbr1 : (fenceBody code ++ (tq ++ R)).takeWhile isWs =
      (fenceBody code).takeWhile isWs := takeWhile_append_tq isWs_bq _ _
  obtain ⟨a, ha, hcases⟩ := mem_openCandidates hp
  rw [hbr1] at ha
  rcases hcases with ⟨b, hb1, hb2, hpb⟩ | hn
  · exfalso
    rcases Nat.lt_or_ge a ((fenceBody code).takeWhile isWs).length with halt | hage
    · have halt' : a < ((fenceBody code ++ (tq ++ R)).takeWhile isWs).length := by
        rw [hbr1]; exact halt
      have hta := drop_takeWhile_eq (l := fenceBody code ++ (tq ++ R)) (p := isWs)
        (Nat.le_of_lt halt')
      rw [List.drop_eq_getElem_cons halt'] at hta
      obtain ⟨hhd, hws⟩ := takeWhile_cons_head hta
      cases hdr : (fenceBody code ++ (tq ++ R)).drop a with
      | nil => rw [hdr] at hhd; cases hhd
      | cons y r =>
        rw [hdr] at hhd
        have hy : y = ((fenceBody code ++ (tq ++ R)).takeWhile isWs)[a] :=
          Option.some.inj hhd
        rw [← hy] at hws
        rw [hdr, takeWhile_nil_of_head_neg (ws_not_word hws)] at hb2
        simp at hb2
        omega
    · have haeq : a = ((fenceBody code).takeWhile isWs).length := Nat.le_antisymm ha hage
      have hda : (fenceBody code ++ (tq ++ R)).drop a =
          (fenceBody code).dropWhile isWs ++ (tq ++ R) := by
        have h1 : (fenceBody code ++ (tq ++ R)).drop a =
            (fenceBody code ++ (tq ++ R)).dropWhile isWs := by
          conv_lhs =>
            rw [← List.takeWhile_append_dropWhile (p := isWs)
              (l := fenceBody code ++ (tq ++ R))]
          rw [haeq, ← hbr1, List.drop_left]
        rw [h1, dropWhile_append_tq isWs_bq]
      have hr : ((fenceBody code ++ (tq ++ R)).drop a).takeWhile isWord =
          ((fenceBody code).dropWhile isWs).takeWhile isWord := by
        rw [hda]
        have h2 : (fenceBody code).dropWhile isWs ++ (tq ++ R) =
            (fenceBody code).dropWhile isWs ++ (bq :: (bq :: bq :: R)) := by simp [tq]
        rw [h2, takeWhile_append_of_neg isWord_bq]
      have hok' : (decide ((((fenceBody code).dropWhile isWs).takeWhile isWord).length = 0) ||
          !(((((fenceBody code).dropWhile isWs).drop
              (((fenceBody code).dropWhile isWs).takeWhile isWord).length).takeWhile
              isWs).any fun c => c == nl)) = true := hok
      simp only [Bool.or_eq_true] at hok'
      rcases hok' with h1 | h2
      · have hr0 : (((fenceBody code).dropWhile isWs).takeWhile isWord).length = 0 :=
          of_decide_eq_true h1
        rw [hr, hr0] at hb2
        omega
      · have hnoNl : (((((fenceBody code).dropWhile isWs).drop
            (((fenceBody code).dropWhile isWs).takeWhile isWord).length).takeWhile
            isWs).any fun c => c == nl) = false := by
          simpa using h2
        rw [hr] at hb2
        rcases Nat.lt_or_ge b
            ((((fenceBody code).dropWhile isWs).takeWhile isWord).length) with hblt | hbge2
        · obtain ⟨-, c, hcle, hhd, -⟩ := mem_innerCands hpb
          have hdb : ((fenceBody code ++ (tq ++ R)).drop a).drop b =
              ((fenceBody code).dropWhile isWs).drop b ++ (tq ++ R) := by
            rw [hda, List.drop_append_eq_append_drop,
              Nat.sub_eq_zero_of_le (le_trans (le_of_lt hblt) (takeWhile_len_le _)),
              List.drop_zero]
          have htb := drop_takeWhile_eq (l := (fenceBody code).dropWhile isWs)
            (p := isWord) (Nat.le_of_lt hblt)
          rw [List.drop_eq_getElem_cons hblt] at htb
          obtain ⟨hhd2, hwd⟩ := takeWhile_cons_head htb
          cases hdr2 : ((fenceBody code).dropWhile isWs).drop b with
          | nil => rw [hdr2] at hhd2; cases hhd2
          | cons w r2 =>
            rw [hdr2] at hhd2
            have hw2 : w = (((fenceBody code).dropWhile isWs).takeWhile isWord)[b] :=
              Option.some.inj hhd2
            rw [← hw2] at hwd
            rw [hdb, hdr2, List.cons_append,
              takeWhile_nil_of_head_neg (word_not_ws hwd)] at hcle
            have hc0 : c = 0 := Nat.le_zero.mp (by simpa using hcle)
            subst hc0
            rw [List.drop_zero, hdb, hdr2, List.cons_append] at hhd
            have hwnl : w = nl := Option.some.inj hhd
            rw [hwnl, isWord_nl] at hwd
            cases hwd
        · have hbeq2 : b = (((fenceBody code).dropWhile isWs).takeWhile isWord).length :=
            Nat.le_antisymm hb2 hbge2
          subst hbeq2
          obtain ⟨-, c, hcle, hhd, -⟩ := mem_innerCands hpb
          have hVbr : (((fenceBody code ++ (tq ++ R)).drop a).drop
              ((((fenceBody code).dropWhile isWs).takeWhile isWord).length)).takeWhile isWs =
              (((fenceBody code).dropWhile isWs).drop
                ((((fenceBody code).dropWhile isWs).takeWhile isWord).length)).takeWhile
                isWs := by
            have hdb : ((fenceBody code ++ (tq ++ R)).drop a).drop
                ((((fenceBody code).dropWhile isWs).takeWhile isWord).length) =
                ((fenceBody code).dropWhile isWs).drop
                  ((((fenceBody code).dropWhile isWs).takeWhile isWord).length) ++
                  (tq ++ R) := by
              rw [hda, List.drop_append_eq_append_drop,
                Nat.sub_eq_zero_of_le (takeWhile_len_le _), List.drop_zero]
            rw [hdb]
            have h3 : ((fenceBody code).dropWhile isWs).drop
                ((((fenceBody code).dropWhile isWs).takeWhile isWord).length) ++ (tq ++ R) =
                ((fenceBody code).dropWhile isWs).drop
                  ((((fenceBody code).dropWhile isWs).takeWhile isWord).length) ++
                  (bq :: (bq :: bq :: R)) := by simp [tq]
            rw [h3, takeWhile_append_of_neg isWs_bq]
          rcases head_drop_spec hcle hhd with ⟨hclt, hmem, -⟩ | ⟨-, hws⟩
          · rw [hVbr] at hmem
            have hforall := List.any_eq_false.mp hnoNl
            exact hforall nl hmem (by decide)
          · rw [isWs_nl] at hws
            cases hws
  · obtain ⟨hp1, c, hcle, hhd, hp2⟩ := mem_innerCands hn
    have hacs : a ≤ ((fenceBody code ++ (tq ++ R)).takeWhile isWs).length := by
      rw [hbr1]; exact ha
    have h5 := drop_takeWhile_eq (l := fenceBody code ++ (tq ++ R)) (p := isWs) hacs
    rw [h5, List.length_drop] at hcle
    rw [List.drop_drop] at hhd hp2
    have hk : a + c ≤ ((fenceBody code ++ (tq ++ R)).takeWhile isWs).length := by
      rw [hbr1] at *
      omega
    rcases head_drop_spec hk hhd with ⟨hklt, -, -⟩ | ⟨-, hws⟩
    · refine ⟨hp1, a + c, ?_, ?_⟩
      · rw [hbr1] at hklt; omega
      · have hidx : a + (c + 1) = (a + c) + 1 := by omega
        rw [hp2, hidx, List.drop_append_eq_append_drop, Nat.sub_eq_zero_of_le,
          List.drop_zero]
        have hle := takeWhile_len_le (p := isWs) (fenceBody code)
        rw [hbr1] at hklt
        omega
    · rw [isWs_nl] at hws
      cases hws

theorem openCandidates_ne_nil_untagged (code R : List Char) :
    openCandidates (fenceBody code ++ (tq ++ R)) ≠ [] := by
  apply List.ne_nil_of_mem
    (a := (([] : List Char), (fenceBody code ++ (tq ++ R)).drop 1))
  rw [openCandidates]
  refine List.mem_flatMap.mpr ⟨0, ?_, ?_⟩
  · rw [List.mem_reverse, List.mem_range]; omega
  · refine List.mem_append.mpr (Or.inr ?_)
    rw [List.drop_zero]
    exact self_mem_innerCands [] (fence_head code R)

theorem openCandidates_ne_nil_tagged {tg : List Char} (code R : List Char)
    (htg : tg ≠ []) (hw : ∀ c ∈ tg, isWord c = true) :
    openCandidates (tg ++ (fenceBody code ++ (tq ++ R))) ≠ [] := by
  apply List.ne_nil_of_mem (a := (tg, (fenceBody code ++ (tq ++ R)).drop 1))
  rw [openCandidates]
  refine List.mem_flatMap.mpr ⟨0, ?_, ?_⟩
  · rw [List.mem_reverse, List.mem_range]; omega
  · refine List.mem_append.mpr (Or.inl ?_)
    refine List.mem_flatMap.mpr ⟨tg.length, ?_, ?_⟩
    · rw [List.drop_zero, takeWhile_word_render hw code R]
      refine List.mem_map.mpr ⟨tg.length - 1, ?_, ?_⟩
      · rw [List.mem_reverse, List.mem_range]
        have : tg.length ≠ 0 := fun h => htg (List.eq_nil_of_length_eq_zero h)
        omega
      · have : tg.length ≠ 0 := fun h => htg (List.eq_nil_of_length_eq_zero h)
        omega
    · rw [List.drop_zero, List.take_left, List.drop_left]
      exact self_mem_innerCands tg (fence_head code R)

theorem matchFenceAfter_render {tg code : List Char} (R : List Char)
    (hT : hasTriple code = false)
    (hcase : (tg ≠ [] ∧ ∀ c ∈ tg, isWord c = true) ∨ (tg = [] ∧ untaggedOk code = true)) :
    ∃ g2, matchFenceAfter (tg ++ (fenceBody code ++ (tq ++ R))) = some ((tg, g2), R) ∧
      stripL g2 = stripL code := by
  rw [matchFenceAfter]
  have hgood : ∀ p ∈ openCandidates (tg ++ (fenceBody code ++ (tq ++ R))),
      ∃ v, ((takeToFence p.2).map fun q => ((p.1, q.1), q.2)) = some v ∧
        ∃ g2, v = ((tg, g2), R) ∧ stripL g2 = stripL code := by
    intro p hp
    have hG : p.1 = tg ∧ ∃ k, k + 1 ≤ ((fenceBody code).takeWhile isWs).length ∧
        p.2 = (fenceBody code).drop (k + 1) ++ (tq ++ R) := by
      rcases hcase with ⟨h1, h2⟩ | ⟨h1, h2⟩
      · exact open_good_tagged R h1 h2 hp
      · subst h1
        rw [List.nil_append] at hp
        exact open_good_untagged R h2 hp
    obtain ⟨hp1, k, hk, hp2⟩ := hG
    obtain ⟨htf, hstrip⟩ := fence_tail_good R hT hk
    refine ⟨((tg, (fenceBody code).drop (k + 1)), R), ?_, ⟨_, rfl, hstrip⟩⟩
    rw [hp2, htf, Option.map_some', hp1]
  have hne : openCandidates (tg ++ (fenceBody code ++ (tq ++ R))) ≠ [] := by
    rcases hcase with ⟨h1, h2⟩ | ⟨h1, h2⟩
    · exact openCandidates_ne_nil_tagged code R h1 h2
    · subst h1
      rw [List.nil_append]
      exact openCandidates_ne_nil_untagged code R
  obtain ⟨v, hv, g2, rfl, hs⟩ := findSome?_of_all _ _ _ hgood hne
  exact ⟨g2, hv, hs⟩

theorem scanAux_nil : ∀ f, scanAux f [] = [] := by
  intro f; cases f <;> rfl

theorem scanAux_skip {txt : List Char} (h : ∀ c ∈ txt, c ≠ bq) :
    ∀ (f : Nat) (X : List Char), scanAux (txt.length + f) (txt ++ X) = scanAux f X := by
  induction txt with
  | nil => intro f X; simp
  | cons c txt ih =>
    intro f X
    have hc : c ≠ bq := h c (List.mem_cons_self c txt)
    have hlen : (c :: txt).length + f = (txt.length + f) + 1 := by
      simp only [List.length_cons]; omega
    rw [hlen, List.cons_append]
    have hst := startsTriple_false_of_head hc (txt ++ X)
    simp only [scanAux, hst, Bool.false_eq_true, if_false]
    exact ih (fun x hx => h x (List.mem_cons_of_mem c hx)) f X

theorem scanAux_no_triple {l : List Char} (h : hasTriple l = false) :
    ∀ f, scanAux f l = [] := by
  induction l with
  | nil => exact scanAux_nil
  | cons c rest ih =>
    intro f
    rw [hasTriple, Bool.or_eq_false_iff] at h
    cases f with
    | zero => rfl
    | succ f =>
      simp only [scanAux, h.1, Bool.false_eq_true, if_false]
      exact ih h.2 f

theorem scanAux_fence {tg code : List Char} (R : List Char) (f : Nat)
    (hT : hasTriple code = false)
    (hcase : (tg ≠ [] ∧ ∀ c ∈ tg, isWord c = true) ∨ (tg = [] ∧ untaggedOk code = true)) :
    ∃ g2, scanAux (f + 1) (renderBlock ⟨tg, code⟩ ++ R) = (tg, g2) :: scanAux f R ∧
      stripL g2 = stripL code := by
  obtain ⟨g2, hm, hs⟩ := matchFenceAfter_render R hT hcase
  refine ⟨g2, ?_, hs⟩
  have hren : renderBlock ⟨tg, code⟩ ++ R =
      bq :: bq :: bq :: (tg ++ (fenceBody code ++ (tq ++ R))) := by
    simp [renderBlock, tq, fenceBody]
  rw [hren]
  simp only [scanAux]
  rw [if_pos (show startsTriple (bq :: bq :: bq ::
      (tg ++ (fenceBody code ++ (tq ++ R)))) = true from rfl)]
  rw [show (bq :: bq :: (tg ++ (fenceBody code ++ (tq ++ R)))).drop 2 =
      tg ++ (fenceBody code ++ (tq ++ R)) from rfl]
  rw [hm]

theorem scan_renderDoc : ∀ (segs : List (List Char × MdBlock)) (t : List Char),
    wfDoc segs t → ∀ f,
    (scanAux ((renderDoc segs t).length + f) (renderDoc segs t)).map
        (fun p => (stripL p.1, stripL p.2)) =
      segs.map fun s => (stripL s.2.tag, stripL s.2.code) := by
  intro segs
  induction segs with
  | nil =>
    intro t hwf f
    rw [renderDoc]
    have hskip := scanAux_skip hwf.2 f []
    rw [List.append_nil] at hskip
    rw [hskip, scanAux_nil, List.map_nil, List.map_nil]
  | cons seg rest ih =>
    intro t hwf f
    obtain ⟨txt, b⟩ := seg
    obtain ⟨htxt, hTb, hcase⟩ := hwf.1 (txt, b) (List.mem_cons_self _ _)
    have hwf' : wfDoc rest t := ⟨fun s hs => hwf.1 s (List.mem_cons_of_mem _ hs), hwf.2⟩
    rw [renderDoc]
    have hlen : (txt ++ (renderBlock b ++ renderDoc rest t)).length + f =
        txt.length + ((renderBlock b ++ renderDoc rest t).length + f) := by
      simp only [List.length_append]; omega
    rw [hlen, scanAux_skip htxt]
    have hrb : (renderBlock b).length = b.tag.length + b.code.length + 8 := by
      simp only [renderBlock, fenceBody, tq, List.length_append, List.length_cons,
        List.length_nil]
      omega
    have hlen2 : (renderBlock b ++ renderDoc rest t).length + f =
        ((renderDoc rest t).length + (b.tag.length + b.code.length + 7 + f)) + 1 := by
      rw [List.length_append, hrb]; omega
    rw [hlen2]
    obtain ⟨g2, hfence, hstrip⟩ := scanAux_fence (renderDoc rest t)
      ((renderDoc rest t).length + (b.tag.length + b.code.length + 7 + f)) hTb hcase
    rw [hfence, List.map_cons, hstrip, ih t hwf' _, List.map_cons]

theorem extract_code_blocks_renderDoc {segs : List (List Char × MdBlock)}
    {t : List Char} (hwf : wfDoc segs t) :
    extract_code_blocks (renderDoc segs t).asString =
      segs.map fun s => ((stripL s.2.tag).asString, (stripL s.2.code).asString) := by
  rw [extract_code_blocks]
  have hdata : ((renderDoc segs t).asString).data = renderDoc segs t := rfl
  rw [hdata, pyScan]
  have hmaster := scan_renderDoc segs t hwf 0
  rw [Nat.add_zero] at hmaster
  have hcomp : (scanAux ((renderDoc segs t).length) (renderDoc segs t)).map
      (fun p => ((stripL p.1).asString, (stripL p.2).asString)) =
      ((scanAux ((renderDoc segs t).length) (renderDoc segs t)).map
        (fun p => (stripL p.1, stripL p.2))).map
        (fun q => (q.1.asString, q.2.asString)) := by
    rw [List.map_map]
    rfl
  rw [hcomp, hmaster, List.map_map]
  rfl

instance (s : List Char × MdBlock) : Decidable (wfSeg s) :=
  match s with
  | (txt, b) =>
    inferInstanceAs (Decidable ((∀ c ∈ txt, c ≠ bq) ∧ hasTriple b.code = false ∧
      ((b.tag ≠ [] ∧ ∀ c ∈ b.tag, isWord c = true) ∨
        (b.tag = [] ∧ untaggedOk b.code = true))))

instance (segs : List (List Char × MdBlock)) (t : List Char) :
    Decidable (wfDoc segs t) :=
  inferInstanceAs (Decidable ((∀ s ∈ segs, wfSeg s) ∧ ∀ c ∈ t, c ≠ bq))

/-- C1.  Extractor determinism: for every markdown text made of N well-formed
fenced code blocks interleaved with fence-free plain text, `extract_code_blocks`
returns exactly the N (tag, code) pairs in document order, each trimmed of
surrounding whitespace; any text containing no triple backtick at all (in
particular, a text with zero fenced blocks) yields the empty sequence, and the
function is total, never a failure.  On the concrete input
`"Here:\n```python\nprint('hi')\n```"` it returns `[("python", "print('hi')")]`. -/
theorem C1_extractor_determinism :
    (∀ (segs : List (List Char × MdBlock)) (t : List Char), wfDoc segs t →
      extract_code_blocks (renderDoc segs t).asString =
        segs.map fun s => ((stripL s.2.tag).asString, (stripL s.2.code).asString)) ∧
    (∀ s : String, hasTriple s.data = false → extract_code_blocks s = []) ∧
    extract_code_blocks "Here:\n```python\nprint('hi')\n```" =
      [("python", "print('hi')")] := by
  refine ⟨fun _ _ hwf => extract_code_blocks_renderDoc hwf, ?_, by decide⟩
  intro s hs
  rw [extract_code_blocks, pyScan, scanAux_no_triple hs, List.map_nil]

/-- Witness for C1: a concrete two-segment document, its well-formedness
discharged by `decide`, evaluated through the theorem. -/
theorem C1_extractor_determinism_witness :
    wfDoc [(['A'], ⟨['p', 'y'], ['x', ' ', '=', ' ', '1']⟩)] [] ∧
    hasTriple "no fences".data = false ∧
    extract_code_blocks
        (renderDoc [(['A'], ⟨['p', 'y'], ['x', ' ', '=', ' ', '1']⟩)] []).asString =
      [("py", "x = 1")] ∧
    extract_code_blocks "no fences" = [] := by
  refine ⟨by decide, by decide, ?_, ?_⟩
  · rw [C1_extractor_determinism.1 _ _ (by decide)]
    decide
  · exact C1_extractor_determinism.2.1 "no fences" (by decide)

/-! ### Decimal numerals

`add_app_to_registry` assigns `str(len(registry) + 1)` as the id.  Python
`str` on a nonnegative integer is the decimal numeral, i.e. `Nat.repr`.
Injectivity of `Nat.repr` (needed for id uniqueness) is proved through an
evaluation function for decimal digit strings.
-/

/-- Value of a decimal digit character. -/
def digitVal (c : Char) : Nat := c.toNat - 48

/-- Value of a decimal numeral, most significant digit first. -/
def decValue (l : List Char) : Nat := l.foldl (fun a c => 10 * a + digitVal c) 0

theorem digitVal_digitChar {m : Nat} (h : m < 10) :
    digitVal (Nat.digitChar m) = m := by
  interval_cases m <;> decide

/-- Decimal digits of a natural number by repeated division, most
significant first. -/
def natDigits (n : Nat) : List Char :=
  if _h : n < 10 then [Nat.digitChar n]
  else natDigits (n / 10) ++ [Nat.digitChar (n % 10)]
termination_by n
decreasing_by
  exact Nat.div_lt_self (by omega) (by omega)

theorem foldl_digit_concat (l : List Char) (c : Char) (a : Nat) :
    (l ++ [c]).foldl (fun a c => 10 * a + digitVal c) a =
      10 * l.foldl (fun a c => 10 * a + digitVal c) a + digitVal c := by
  rw [List.foldl_append]
  rfl

theorem decValue_natDigits : ∀ n, decValue (natDigits n) = n := by
  intro n
  induction n using Nat.strong_induction_on with
  | _ n ih =>
    by_cases h : n < 10
    · rw [natDigits, dif_pos h, decValue]
      show 10 * 0 + digitVal (Nat.digitChar n) = n
      rw [digitVal_digitChar h]
      omega
    · rw [natDigits, dif_neg h, decValue, foldl_digit_concat]
      have hdiv : n / 10 < n := Nat.div_lt_self (by omega) (by omega)
      have hmod : n % 10 < 10 := Nat.mod_lt _ (by omega)
      have hrec : (natDigits (n / 10)).foldl (fun a c => 10 * a + digitVal c) 0 =
          n / 10 := ih _ hdiv
      rw [hrec, digitVal_digitChar hmod]
      omega

theorem toDigitsCore_eq : ∀ (f n : Nat) (acc : List Char), n < 10 ^ f → 0 < f →
    Nat.toDigitsCore 10 f n acc = natDigits n ++ acc := by
  intro f
  induction f with
  | zero => intro n acc _ hf; omega
  | succ f ih =>
    intro n acc hn _
    by_cases hz : n / 10 = 0
    · have hlt : n < 10 := by
        rcases Nat.lt_or_ge n 10 with h | h
        · exact h
        · exfalso
          have : 1 ≤ n / 10 := Nat.le_div_iff_mul_le (by omega) |>.mpr (by omega)
          omega
      rw [Nat.toDigitsCore, hz, if_pos rfl, natDigits, dif_pos hlt,
        Nat.mod_eq_of_lt hlt, List.singleton_append]
    · have hge : 10 ≤ n := by
        rcases Nat.lt_or_ge n 10 with h | h
        · exact absurd (Nat.div_eq_of_lt h) hz
        · exact h
      have hf : 0 < f := by
        rcases Nat.eq_zero_or_pos f with rfl | h
        · simp at hn; omega
        · exact h
      have hdiv : n / 10 < 10 ^ f := by
        rw [Nat.div_lt_iff_lt_mul (by omega)]
        calc n < 10 ^ (f + 1) := hn
        _ = 10 ^ f * 10 := by rw [Nat.pow_succ]
      rw [Nat.toDigitsCore, if_neg hz, ih (n / 10) _ hdiv hf]
      rw [show natDigits n = natDigits (n / 10) ++ [Nat.digitChar (n % 10)] from by
        rw [natDigits, dif_neg (by omega)]]
      rw [List.append_assoc, List.singleton_append]

theorem decValue_repr (n : Nat) : decValue (Nat.repr n).data = n := by
  have h1 : n < 10 ^ (n + 1) := by
    calc n < 2 ^ n := Nat.lt_two_pow n
    _ ≤ 10 ^ n := Nat.pow_le_pow_left (by omega) n
    _ ≤ 10 ^ (n + 1) := Nat.pow_le_pow_right (by omega) (by omega)
  have h2 : (Nat.repr n).data = Nat.toDigitsCore 10 (n + 1) n [] := rfl
  rw [h2, toDigitsCore_eq (n + 1) n [] h1 (by omega), List.append_nil,
    decValue_natDigits]

theorem Nat_repr_injective {a b : Nat} (h : Nat.repr a = Nat.repr b) : a = b := by
  have hv := congrArg (fun s => decValue s.data) h
  simp only at hv
  rwa [decValue_repr, decValue_repr] at hv

/-- Registry invariant: the ids are the decimal numerals `1 .. n` in order,
exactly what consecutive `add_app_to_registry` calls assign. -/
def seqIds (reg : List AppEntry) : Prop :=
  ∀ i : Fin reg.length, (reg.get i).id = Nat.repr (i.val + 1)

theorem seqIds_append {reg : List AppEntry} (hseq : seqIds reg) (e : AppEntry)
    (he : e.id = Nat.repr (reg.length + 1)) : seqIds (reg ++ [e]) := by
  intro i
  by_cases hi : i.val < reg.length
  · rw [List.get_eq_getElem, List.getElem_append_left hi]
    simpa [List.get_eq_getElem] using hseq ⟨i.val, hi⟩
  · have hieq : i.val = reg.length := by
      have h2 : i.val < reg.length + 1 := by simpa using i.isLt
      omega
    rw [List.get_eq_getElem, List.getElem_append_right (by omega)]
    simp [hieq, he]

/-- C2.  After one successful creation the stored record list is the old one
with exactly one record appended: the length grows by one, every prior index
holds the identical record (all fields, id included), and — on any registry
whose ids form the sequence `1 .. n` — the new id is the next numeral
`n + 1`, differs from every existing id, and the sequence invariant is
preserved. -/
theorem C2_registry_append_only (abspath : String → String) (f : RegFile)
    (nm ds lg pth : String) (fts : Option (List String)) (now : String) :
    load_apps_registry (add_app_to_registry abspath f nm ds lg pth fts now) =
      load_apps_registry f ++
        [{ id := Nat.repr ((load_apps_registry f).length + 1), name := nm,
           description := ds, language := lg, path := abspath pth,
           features := fts.getD [], created_at := now }] ∧
    (load_apps_registry (add_app_to_registry abspath f nm ds lg pth fts now)).length =
      (load_apps_registry f).length + 1 ∧
    (∀ i : Nat, i < (load_apps_registry f).length →
      (load_apps_registry (add_app_to_registry abspath f nm ds lg pth fts now))[i]? =
        (load_apps_registry f)[i]?) ∧
    (seqIds (load_apps_registry f) →
      (∀ e ∈ load_apps_registry f,
        e.id ≠ Nat.repr ((load_apps_registry f).length + 1)) ∧
      seqIds (load_apps_registry (add_app_to_registry abspath f nm ds lg pth fts now))) := by
  have heq : load_apps_registry (add_app_to_registry abspath f nm ds lg pth fts now) =
      load_apps_registry f ++
        [{ id := Nat.repr ((load_apps_registry f).length + 1), name := nm,
           description := ds, language := lg, path := abspath pth,
           features := fts.getD [], created_at := now }] := rfl
  refine ⟨heq, ?_, ?_, ?_⟩
  · rw [heq, List.length_append, List.length_singleton]
  · intro i hi
    rw [heq, List.getElem?_append, if_pos hi]
  · intro hseq
    constructor
    · intro e he hid
      obtain ⟨i, hget⟩ := List.mem_iff_get.mp he
      have h1 : e.id = Nat.repr (i.val + 1) := by rw [← hget]; exact hseq i
      rw [h1] at hid
      have h2 := Nat_repr_injective hid
      have := i.isLt
      omega
    · exact seqIds_append hseq _ rfl

instance (reg : List AppEntry) : Decidable (seqIds reg) :=
  inferInstanceAs (Decidable (∀ i : Fin reg.length, (reg.get i).id = Nat.repr (i.val + 1)))

/-- Witness for C2: a one-record registry with id "1", one creation appended. -/
theorem C2_registry_append_only_witness :
    seqIds (load_apps_registry (RegFile.stored
      [{ id := "1", name := "a", description := "b", language := "c",
         path := "d", features := [], created_at := "t" }])) ∧
    (0 : Nat) < (load_apps_registry (RegFile.stored
      [{ id := "1", name := "a", description := "b", language := "c",
         path := "d", features := [], created_at := "t" }])).length ∧
    (load_apps_registry (add_app_to_registry (fun s => s) (RegFile.stored
      [{ id := "1", name := "a", description := "b", language := "c",
         path := "d", features := [], created_at := "t" }]) "n" "q" "l" "p" none "u"))[0]? =
      (load_apps_registry (RegFile.stored
        [{ id := "1", name := "a", description := "b", language := "c",
           path := "d", features := [], created_at := "t" }]))[0]? ∧
    ((∀ e ∈ load_apps_registry (RegFile.stored
        [{ id := "1", name := "a", description := "b", language := "c",
           path := "d", features := [], created_at := "t" }]),
        e.id ≠ Nat.repr ((load_apps_registry (RegFile.stored
          [{ id := "1", name := "a", description := "b", language := "c",
             path := "d", features := [], created_at := "t" }])).length + 1)) ∧
      seqIds (load_apps_registry (add_app_to_registry (fun s => s) (RegFile.stored
        [{ id := "1", name := "a", description := "b", language := "c",
           path := "d", features := [], created_at := "t" }]) "n" "q" "l" "p" none "u"))) :=
  ⟨by decide, by decide,
    (C2_registry_append_only (fun s => s) (RegFile.stored
      [{ id := "1", name := "a", description := "b", language := "c",
         path := "d", features := [], created_at := "t" }])
      "n" "q" "l" "p" none "u").2.2.1 0 (by decide),
    (C2_registry_append_only (fun s => s) (RegFile.stored
      [{ id := "1", name := "a", description := "b", language := "c",
         path := "d", features := [], created_at := "t" }])
      "n" "q" "l" "p" none "u").2.2.2 (by decide)⟩

/-- C8.  Loading the registry from an absent file or from a file whose
contents fail to parse yields the empty registry; `load_apps_registry` is a
total function, so no fatal error is possible. -/
theorem C8_registry_load_resilient :
    load_apps_registry RegFile.absent = [] ∧
    ∀ raw, load_apps_registry (RegFile.corrupt raw) = [] :=
  ⟨rfl, fun _ => rfl⟩

/-- Counterexample to C3: the three outcomes are not mutually
distinguishable.  A zero-status run whose stdout happens to read
"Error/Message: boom" returns the very same plain-string value as a
failing run with stderr "boom", and a run with completion status zero
(not non-zero, as claimed) and empty stdout still surfaces the
`Error/Message:` string. -/
theorem C3_gateway_not_typed :
    get_copilot_suggestion (ProcOutcome.completed 0 "Error/Message: boom" "junk") =
      get_copilot_suggestion (ProcOutcome.completed 1 "out" "boom") ∧
    get_copilot_suggestion (ProcOutcome.completed 0 "" "oops") =
      some "Error/Message: oops" := by
  constructor
  · decide
  · decide

/-- C3 amended: the invocation returns an optional plain string, not typed
outcomes: status zero with nonempty stripped stdout yields the stripped
stdout; otherwise any nonempty stripped stderr (regardless of completion
status) yields a string prefixed "Error/Message: ", which is not distinct
from a possible success value; otherwise the result is `none`; a failure to
start yields a string prefixed "Execution Error: " carrying the cause. -/
theorem C3_gateway_amended :
    (∀ (rc : Int) (out err : String), rc = 0 → pyStrip out ≠ "" →
      get_copilot_suggestion (.completed rc out err) = some (pyStrip out)) ∧
    (∀ (rc : Int) (out err : String), ¬(rc = 0 ∧ pyStrip out ≠ "") →
      pyStrip err ≠ "" →
      get_copilot_suggestion (.completed rc out err) =
        some ("Error/Message: " ++ pyStrip err)) ∧
    (∀ (rc : Int) (out err : String), ¬(rc = 0 ∧ pyStrip out ≠ "") →
      pyStrip err = "" →
      get_copilot_suggestion (.completed rc out err) = none) ∧
    (∀ e : String, get_copilot_suggestion (.failed e) =
      some ("Execution Error: " ++ e)) := by
  refine ⟨?_, ?_, ?_, fun e => rfl⟩
  · intro rc out err h1 h2
    simp only [get_copilot_suggestion]
    rw [if_pos ⟨h1, h2⟩]
  · intro rc out err h1 h2
    simp only [get_copilot_suggestion]
    rw [if_neg h1, if_pos h2]
  · intro rc out err h1 h2
    simp only [get_copilot_suggestion]
    rw [if_neg h1, if_neg (fun hne => hne h2)]

/-- Witness for the amended C3 on concrete runs. -/
theorem C3_gateway_amended_witness :
    get_copilot_suggestion (.completed 0 " hello " "e") = some (pyStrip " hello ") ∧
    get_copilot_suggestion (.completed 2 "" "bad") =
      some ("Error/Message: " ++ pyStrip "bad") ∧
    get_copilot_suggestion (.completed 2 "" "") = none :=
  ⟨C3_gateway_amended.1 0 " hello " "e" rfl (by decide),
    C3_gateway_amended.2.1 2 "" "bad" (by decide) (by decide),
    C3_gateway_amended.2.2.1 2 "" "" (by decide) (by decide)⟩

/-! ### Execution dispatcher

`run_app` (`app_generator.py`, lines 138-217) and the legacy C++ branch
(`App Generator/app_generator.py`, lines 90-112), embedded as the sequence
of observable actions each run performs.  Outcomes of the launched
processes themselves (interpreter exit codes and so on) are outside the
model; the catch-all `except` around the dispatcher surfaces a read failure
of the Python source as the generic run-error message.
-/

/-- Observable actions of one `run_app` call, in program order. -/
inductive Effect
  | pipInstall (pkgs : List String)
  | ranStreamlit (path : String)
  | ranPython (path : String)
  | openedBrowser (url : String)
  | compiled (src exe : String)
  | startedWinConsole (exe : String)
  | ranExe (exe : String)
  | printedOnlineFallback
  | ranOnlineProgramiz (code : String)
  | printedReadError
  | printedCompilationFailed (diagnostics : String)
  | printedNoGpp
  | openedWithOS (path : String)
  | printedUnknownRunner (language : String)
  | printedRunError
deriving DecidableEq

/-- External environment of one `run_app` call: toolchain presence,
platform, `os.path.abspath`, the readable state of the filesystem, and the
result the local `g++` invocation would produce for this source. -/
structure RunEnv where
  hasGpp : Bool
  isWin : Bool
  abspath : String → String
  readFile : String → Option String
  gppReturncode : Int
  gppStderr : String

/-- The duck-typed app entry handed to `run_app`; `language` is read with
`.get("language", "auto")`. -/
structure RunEntry where
  name : String
  path : String
  language : Option String

/-- Case-insensitive match of a literal against a prefix of the input,
returning the rest on success. -/
def matchCI : List Char → List Char → Option (List Char)
  | [], rest => some rest
  | _ :: _, [] => none
  | l :: ls, c :: cs => if c.toLower = l then matchCI ls cs else none

/-- One attempt of the `#\s*requirements:\s*(.*)` pattern (re.IGNORECASE)
at the current position; `(.*)` extends to the end of the line. -/
def tryReqAt : List Char → Option (List Char)
  | [] => none
  | c :: cs =>
    if c = Char.ofNat 35 then
      match matchCI "requirements:".data (cs.dropWhile isWs) with
      | some rest => some ((rest.dropWhile isWs).takeWhile fun ch => ch != nl)
      | none => none
    else none

/-- `re.search` for the requirements comment: leftmost match wins
(line 154). -/
def findReq : List Char → Option (List Char)
  | [] => none
  | c :: cs =>
    match tryReqAt (c :: cs) with
    | some r => some r
    | none => findReq cs

/-- Python `str.lower` on ASCII input. -/
def pyLower (s : String) : String := (s.data.map Char.toLower).asString

/-- Python `str.endswith`. -/
def pyEndsWith (s suffix : String) : Bool := suffix.data.isSuffixOf s.data

/-- Left-to-right replacement of every non-overlapping occurrence, with
fuel bounded by the input length (each step consumes at least one
character; the dispatcher only ever replaces the nonempty needle
`".cpp"`). -/
def replaceAux (old new : List Char) : Nat → List Char → List Char
  | 0, l => l
  | _ + 1, [] => []
  | fuel + 1, c :: rest =>
    if old.isPrefixOf (c :: rest) && !old.isEmpty then
      new ++ replaceAux old new fuel ((c :: rest).drop old.length)
    else c :: replaceAux old new fuel rest

/-- Python `str.replace` (all occurrences). -/
def pyReplace (s old new : String) : String :=
  (replaceAux old.data new.data s.data.length s.data).asString

/-- Python `str.split` on a one-character separator: the pieces between
separators, empty pieces included. -/
def pySplit (sep : Char) : List Char → List Char → List String
  | acc, [] => [acc.reverse.asString]
  | acc, c :: rest =>
    if c = sep then acc.reverse.asString :: pySplit sep [] rest
    else pySplit sep (c :: acc) rest

/-- Python `sub in s` on character lists. -/
def containsSub (sub : List Char) : List Char → Bool
  | [] => sub.isEmpty
  | c :: rest => sub.isPrefixOf (c :: rest) || containsSub sub rest

/-- Python `sub in s` on `String`. -/
def strContains (hay sub : String) : Bool := containsSub sub.data hay.data

/-- The dependency list parsed from the requirements comment: split on
commas, strip each piece, drop empty pieces (line 156). -/
def parseReqs (group : List Char) : List String :=
  ((pySplit (Char.ofNat 44) [] group).map pyStrip).filter fun r => r ≠ ""

/-- Effects of the Python branch of `run_app` (lines 148-174): best-effort
dependency installation when a requirements comment is present, then run
with streamlit when the source imports it, else with the plain
interpreter.  (The naive import detection of lines 161-168 fills a set that
is never used afterwards, so it contributes no effect.) -/
def pythonBranch (file_path : String) (content : String) : List Effect :=
  (match findReq content.data with
   | some g => if parseReqs g ≠ [] then [Effect.pipInstall (parseReqs g)] else []
   | none => []) ++
  (if strContains content "import streamlit" then [Effect.ranStreamlit file_path]
   else [Effect.ranPython file_path])

/-- The Python branch including the read of the source file; a read failure
propagates to the surrounding `except` and is reported (line 217). -/
def pythonDispatch (env : RunEnv) (file_path : String) : List Effect :=
  match env.readFile file_path with
  | none => [Effect.printedRunError]
  | some content => pythonBranch file_path content

/-- `file_path.replace(".cpp", ".exe" if win else "")` (line 189). -/
def exePath (file_path : String) (isWin : Bool) : String :=
  pyReplace file_path ".cpp" (if isWin then ".exe" else "")

/-- The online-compiler fallback (lines 200-208): the fallback message,
then the Programiz automation on the file's contents, or the read-error
report. -/
def onlineFallback (env : RunEnv) (file_path : String) : List Effect :=
  Effect.printedOnlineFallback ::
    (match env.readFile file_path with
     | some content => [Effect.ranOnlineProgramiz content]
     | none => [Effect.printedReadError])

/-- The C++ branch of the primary `run_app` (lines 180-208): with g++
present, compile; on success launch the executable (new console on
Windows) and return; on compile failure, or with no compiler at all, fall
through to the online-compiler automation. -/
def cppBranch (env : RunEnv) (file_path : String) : List Effect :=
  if env.hasGpp then
    Effect.compiled file_path (exePath file_path env.isWin) ::
      (if env.gppReturncode = 0 then
        (if env.isWin then [Effect.startedWinConsole (exePath file_path env.isWin)]
         else [Effect.ranExe (exePath file_path env.isWin)])
      else onlineFallback env file_path)
  else onlineFallback env file_path

/-- The C++ branch of the legacy variant
(`App Generator/app_generator.py`, lines 90-112): a missing compiler is
reported and the run stops; a failed compile reports the compiler
diagnostics and stops; otherwise the executable is launched. -/
def cppBranchLegacy (env : RunEnv) (file_path : String) : List Effect :=
  if env.hasGpp then
    Effect.compiled file_path (exePath file_path env.isWin) ::
      (if env.gppReturncode = 0 then
        (if env.isWin then [Effect.startedWinConsole (exePath file_path env.isWin)]
         else [Effect.ranExe (exePath file_path env.isWin)])
      else [Effect.printedCompilationFailed env.gppStderr])
  else [Effect.printedNoGpp]

/-- Embedding of the primary `run_app` (lines 138-217): runtime selection by
declared language (lower-cased, defaulted to "auto") or path extension, in
the source's if/elif order. -/
def run_app (env : RunEnv) (entry : RunEntry) : List Effect :=
  let file_path := entry.path
  let language := pyLower (entry.language.getD "auto")
  if language = "python" || pyEndsWith file_path ".py" then
    pythonDispatch env file_path
  else if language = "html" || pyEndsWith file_path ".html" then
    [Effect.openedBrowser ("file://" ++ env.abspath file_path)]
  else if language = "c++" || pyEndsWith file_path ".cpp" then
    cppBranch env file_path
  else
    Effect.printedUnknownRunner language ::
      (if env.isWin then [Effect.openedWithOS file_path] else [])

/-- Counterexample to C4: in the primary variant, with g++ available and a
compilation returning status 1, the dispatcher does not stop — it proceeds
to the Programiz online-compiler automation — and no compiler-diagnostics
report appears anywhere in the run's effects. -/
theorem C4_compile_failure_not_stopping :
    Effect.ranOnlineProgramiz "int main()" ∈
      run_app (⟨true, false, fun s => s, fun _ => some "int main()", 1, "boom"⟩ : RunEnv)
        ⟨"app", "bad.cpp", some "C++"⟩ ∧
    ∀ d, Effect.printedCompilationFailed d ∉
      run_app (⟨true, false, fun s => s, fun _ => some "int main()", 1, "boom"⟩ : RunEnv)
        ⟨"app", "bad.cpp", some "C++"⟩ := by
  have hrun : run_app
      (⟨true, false, fun s => s, fun _ => some "int main()", 1, "boom"⟩ : RunEnv)
      ⟨"app", "bad.cpp", some "C++"⟩ =
      [Effect.compiled "bad.cpp" "bad", Effect.printedOnlineFallback,
       Effect.ranOnlineProgramiz "int main()"] := by decide
  constructor
  · rw [hrun]
    simp
  · intro d
    rw [hrun]
    intro h
    simp at h

/-- C4 amended: with a native compiler available, a failed local compile in
the primary variant prints no compiler diagnostics and takes the
online-compiler fallback; only the legacy variant reports the diagnostics
and stops there. -/
theorem C4_compile_failure_amended (env : RunEnv) (path : String)
    (hg : env.hasGpp = true) (hrc : env.gppReturncode ≠ 0) :
    cppBranch env path =
      Effect.compiled path (exePath path env.isWin) :: onlineFallback env path ∧
    (∀ d, Effect.printedCompilationFailed d ∉ cppBranch env path) ∧
    cppBranchLegacy env path =
      [Effect.compiled path (exePath path env.isWin),
       Effect.printedCompilationFailed env.gppStderr] := by
  refine ⟨?_, ?_, ?_⟩
  · rw [cppBranch, if_pos hg, if_neg hrc]
  · intro d
    rw [cppBranch, if_pos hg, if_neg hrc, onlineFallback]
    intro h
    rcases List.mem_cons.mp h with h | h
    · simp at h
    · rcases List.mem_cons.mp h with h | h
      · simp at h
      · cases henv : env.readFile path with
        | some c => rw [henv] at h; simp at h
        | none => rw [henv] at h; simp at h
  · rw [cppBranchLegacy, if_pos hg, if_neg hrc]

/-- Witness for the amended C4 at a concrete failing compile. -/
theorem C4_compile_failure_amended_witness :
    (⟨true, false, fun s => s, fun _ => some "src", 1, "err"⟩ : RunEnv).hasGpp = true ∧
    (⟨true, false, fun s => s, fun _ => some "src", 1, "err"⟩ : RunEnv).gppReturncode ≠ 0 ∧
    cppBranchLegacy (⟨true, false, fun s => s, fun _ => some "src", 1, "err"⟩ : RunEnv)
        "x.cpp" =
      [Effect.compiled "x.cpp" (exePath "x.cpp"
        (⟨true, false, fun s => s, fun _ => some "src", 1, "err"⟩ : RunEnv).isWin),
       Effect.printedCompilationFailed "err"] :=
  ⟨rfl, by decide,
    (C4_compile_failure_amended
      (⟨true, false, fun s => s, fun _ => some "src", 1, "err"⟩ : RunEnv)
      "x.cpp" rfl (by decide)).2.2⟩

/-- C10.  `run_app` selects the runtime by disjunction of declared language
(lower-cased, defaulting to "auto") and path extension, in the source's
if/elif order: Python runner when the language is "python" or the path ends
in ".py"; the browser when the language is "html" or the path ends in
".html"; the C++ branch when the language is "c++" or the path ends in
".cpp"; records matching none of these fall through to the
open-with-associated-application action.  In particular an entry whose
language is the unresolved sentinel "Auto" still dispatches by its file
extension. -/
theorem C10_runtime_selection (env : RunEnv) (entry : RunEntry) :
    ((pyLower (entry.language.getD "auto") = "python" ∨
        pyEndsWith entry.path ".py" = true) →
      run_app env entry = pythonDispatch env entry.path) ∧
    (¬(pyLower (entry.language.getD "auto") = "python" ∨
        pyEndsWith entry.path ".py" = true) →
      (pyLower (entry.language.getD "auto") = "html" ∨
        pyEndsWith entry.path ".html" = true) →
      run_app env entry =
        [Effect.openedBrowser ("file://" ++ env.abspath entry.path)]) ∧
    (¬(pyLower (entry.language.getD "auto") = "python" ∨
        pyEndsWith entry.path ".py" = true) →
      ¬(pyLower (entry.language.getD "auto") = "html" ∨
        pyEndsWith entry.path ".html" = true) →
      (pyLower (entry.language.getD "auto") = "c++" ∨
        pyEndsWith entry.path ".cpp" = true) →
      run_app env entry = cppBranch env entry.path) ∧
    (¬(pyLower (entry.language.getD "auto") = "python" ∨
        pyEndsWith entry.path ".py" = true) →
      ¬(pyLower (entry.language.getD "auto") = "html" ∨
        pyEndsWith entry.path ".html" = true) →
      ¬(pyLower (entry.language.getD "auto") = "c++" ∨
        pyEndsWith entry.path ".cpp" = true) →
      run_app env entry =
        Effect.printedUnknownRunner (pyLower (entry.language.getD "auto")) ::
          (if env.isWin then [Effect.openedWithOS entry.path] else [])) ∧
    (∀ (p nm : String), pyEndsWith p ".py" = true →
      run_app env ⟨nm, p, some "Auto"⟩ = pythonDispatch env p) := by
  refine ⟨?_, ?_, ?_, ?_, ?_⟩
  · intro h
    have hc : (decide (pyLower (entry.language.getD "auto") = "python") ||
        pyEndsWith entry.path ".py") = true := by
      rcases h with h | h <;> simp [h]
    simp only [run_app]
    rw [if_pos hc]
  · intro h1 h2
    have hc1 : ¬((decide (pyLower (entry.language.getD "auto") = "python") ||
        pyEndsWith entry.path ".py") = true) := by
      simp only [Bool.or_eq_true, decide_eq_true_eq]
      exact h1
    have hc2 : (decide (pyLower (entry.language.getD "auto") = "html") ||
        pyEndsWith entry.path ".html") = true := by
      rcases h2 with h | h <;> simp [h]
    simp only [run_app]
    rw [if_neg hc1, if_pos hc2]
  · intro h1 h2 h3
    have hc1 : ¬((decide (pyLower (entry.language.getD "auto") = "python") ||
        pyEndsWith entry.path ".py") = true) := by
      simp only [Bool.or_eq_true, decide_eq_true_eq]
      exact h1
    have hc2 : ¬((decide (pyLower (entry.language.getD "auto") = "html") ||
        pyEndsWith entry.path ".html") = true) := by
      simp only [Bool.or_eq_true, decide_eq_true_eq]
      exact h2
    have hc3 : (decide (pyLower (entry.language.getD "auto") = "c++") ||
        pyEndsWith entry.path ".cpp") = true := by
      rcases h3 with h | h <;> simp [h]
    simp only [run_app]
    rw [if_neg hc1, if_neg hc2, if_pos hc3]
  · intro h1 h2 h3
    have hc1 : ¬((decide (pyLower (entry.language.getD "auto") = "python") ||
        pyEndsWith entry.path ".py") = true) := by
      simp only [Bool.or_eq_true, decide_eq_true_eq]
      exact h1
    have hc2 : ¬((decide (pyLower (entry.language.getD "auto") = "html") ||
        pyEndsWith entry.path ".html") = true) := by
      simp only [Bool.or_eq_true, decide_eq_true_eq]
      exact h2
    have hc3 : ¬((decide (pyLower (entry.language.getD "auto") = "c++") ||
        pyEndsWith entry.path ".cpp") = true) := by
      simp only [Bool.or_eq_true, decide_eq_true_eq]
      exact h3
    simp only [run_app]
    rw [if_neg hc1, if_neg hc2, if_neg hc3]
  · intro p nm hp
    have hc : (decide (pyLower ((some "Auto").getD "auto") = "python") ||
        pyEndsWith p ".py") = true := by simp [hp]
    simp only [run_app]
    rw [if_pos hc]

/-- Witness for C10: a "Python"-tagged entry and an "Auto"-tagged entry
with a ".py" path both take the Python runner. -/
theorem C10_runtime_selection_witness :
    (pyLower ((some "Python").getD "auto") = "python" ∨
      pyEndsWith "m.py" ".py" = true) ∧
    run_app (⟨false, false, fun s => s, fun _ => none, 0, ""⟩ : RunEnv)
        ⟨"a", "m.py", some "Python"⟩ =
      pythonDispatch (⟨false, false, fun s => s, fun _ => none, 0, ""⟩ : RunEnv)
        "m.py" ∧
    pyEndsWith "b.py" ".py" = true ∧
    run_app (⟨false, false, fun s => s, fun _ => none, 0, ""⟩ : RunEnv)
        ⟨"b", "b.py", some "Auto"⟩ =
      pythonDispatch (⟨false, false, fun s => s, fun _ => none, 0, ""⟩ : RunEnv)
        "b.py" :=
  ⟨by decide,
    (C10_runtime_selection (⟨false, false, fun s => s, fun _ => none, 0, ""⟩ : RunEnv)
      ⟨"a", "m.py", some "Python"⟩).1 (by decide),
    by decide,
    (C10_runtime_selection (⟨false, false, fun s => s, fun _ => none, 0, ""⟩ : RunEnv)
      ⟨"b", "b.py", some "Auto"⟩).2.2.2.2 "b.py" "b" (by decide)⟩

/-! ### Artifact materializer

The save flow of `main` (`app_generator.py`, lines 548-606): multi-file
layout into a directory named after the app, or a single file in the
working directory; plus the legacy single-file filename fixup
(`App Generator/app_generator.py`, lines 275-285).
-/

/-- Extension inference for a multi-file block from its declared tag
(lines 568-574). -/
def inferExt (lang : String) : String :=
  if strContains lang "python" || strContains lang "py" then ".py"
  else if strContains lang "html" then ".html"
  else if strContains lang "cpp" || strContains lang "c++" then ".cpp"
  else if strContains lang "css" then ".css"
  else if strContains lang "js" || strContains lang "javascript" then ".js"
  else ".txt"

/-- Default filename for block `i` (lines 576-580): conventional entry-point
names for the first block, sequential fallback names after it. -/
def defaultFname (i : Nat) (ext : String) : String :=
  if i = 0 then
    (if ext = ".py" then "main.py"
     else if ext = ".html" then "index.html"
     else if ext = ".cpp" then "main.cpp"
     else "file_0" ++ ext)
  else "file_" ++ Nat.repr i ++ ext

/-- `os.path.join` with the POSIX separator. -/
def pathJoin (a b : String) : String := a ++ "/" ++ b

/-- Extension for the single-file flow (lines 596-600): the selected
language decides first, then the block tag. -/
def extSingle (selected_language lang : String) : String :=
  if selected_language = "HTML" then ".html"
  else if selected_language = "C++" then ".cpp"
  else if strContains lang "python" then ".py"
  else if strContains lang "html" then ".html"
  else ".py"

/-- Result of one materialization: the directory created (multi-file
only), the files written in order (path, content), and the `saved_path`
recorded in the registry. -/
structure MatResult where
  mkdir : Option String
  writes : List (String × String)
  saved_path : String
deriving DecidableEq

/-- Embedding of the save flow (lines 561-606).  `fnames i` is the
caller's filename for block `i`; `none` accepts the prompt's default.  An
empty block list never reaches this code (guarded by `if code_blocks:` at
line 548); the model returns the empty result there, mirroring the
untouched `saved_path = ""` initialisation. -/
def materialize (app_name selected_language : String) (is_complex : Bool)
    (code_blocks : List (String × String)) (fnames : Nat → Option String) :
    MatResult :=
  if is_complex || decide (code_blocks.length > 1) then
    let files := code_blocks.enum.map fun p =>
      (pathJoin app_name ((fnames p.1).getD (defaultFname p.1 (inferExt p.2.1))),
        p.2.2)
    { mkdir := some app_name
      writes := files
      saved_path := (files.head?.map Prod.fst).getD "" }
  else
    match code_blocks with
    | [] => { mkdir := none, writes := [], saved_path := "" }
    | (lang, code) :: _ =>
      { mkdir := none
        writes := [(app_name ++ extSingle selected_language lang, code)]
        saved_path := app_name ++ extSingle selected_language lang }

/-- Read a path back from the performed writes; the last write to a path
wins, as on a filesystem. -/
def readBack (writes : List (String × String)) (p : String) : Option String :=
  (writes.reverse.find? fun w => w.1 == p).map Prod.snd

/-- C5.  Multi-file scenario: three blocks tagged python/css/js, caller
accepting the default filenames: the materializer creates the directory
named after the app, writes the first block as `main.py` inside it and the
other two with inferred extensions `.css` and `.js`, and the primary path
is the first file written, `<app_name>/main.py`; the registry record
created from it stores that path (made absolute). -/
theorem C5_multi_file_materialization (app_name c1 c2 c3 : String)
    (abspath : String → String) (f : RegFile) (query now : String)
    (features : Option (List String)) :
    materialize app_name "Python" true [("python", c1), ("css", c2), ("js", c3)]
        (fun _ => none) =
      { mkdir := some app_name
        writes := [(pathJoin app_name "main.py", c1),
                   (pathJoin app_name "file_1.css", c2),
                   (pathJoin app_name "file_2.js", c3)]
        saved_path := pathJoin app_name "main.py" } ∧
    ((load_apps_registry (add_app_to_registry abspath f app_name query "Python"
        (materialize app_name "Python" true [("python", c1), ("css", c2), ("js", c3)]
          (fun _ => none)).saved_path features now)).getLast?).map AppEntry.path =
      some (abspath (pathJoin app_name "main.py")) := by
  have e1 : defaultFname 0 (inferExt "python") = "main.py" := rfl
  have e2 : defaultFname 1 (inferExt "css") = "file_1.css" := rfl
  have e3 : defaultFname 2 (inferExt "js") = "file_2.js" := rfl
  have hmat : materialize app_name "Python" true
      [("python", c1), ("css", c2), ("js", c3)] (fun _ => none) =
      { mkdir := some app_name
        writes := [(pathJoin app_name "main.py", c1),
                   (pathJoin app_name "file_1.css", c2),
                   (pathJoin app_name "file_2.js", c3)]
        saved_path := pathJoin app_name "main.py" } := by
    simp only [materialize, List.enum, List.enumFrom, List.map, Option.getD,
      Bool.true_or, if_true, List.head?, Option.map]
    rw [e1, e2, e3]
  refine ⟨hmat, ?_⟩
  rw [hmat]
  have h2 : load_apps_registry (add_app_to_registry abspath f app_name query
      "Python" (pathJoin app_name "main.py") features now) =
      load_apps_registry f ++
        [{ id := Nat.repr ((load_apps_registry f).length + 1), name := app_name,
           description := query, language := "Python",
           path := abspath (pathJoin app_name "main.py"),
           features := features.getD [], created_at := now }] := rfl
  rw [h2, List.getLast?_concat]
  rfl

/-- C6.  Round-trip of single-file materialization: when extraction of the
response yields exactly one block and the simple layout is chosen, the
content read back at the returned primary path is exactly the extracted
(stripped) code text — no transformation is applied. -/
theorem C6_single_file_roundtrip (md app_name selected_language : String)
    (fnames : Nat → Option String) (lang code : String)
    (hx : extract_code_blocks md = [(lang, code)]) :
    readBack
      (materialize app_name selected_language false (extract_code_blocks md)
        fnames).writes
      (materialize app_name selected_language false (extract_code_blocks md)
        fnames).saved_path = some code := by
  rw [hx]
  simp only [materialize]
  rw [if_neg (by simp)]
  simp [readBack]

/-- Witness for C6 on the concrete response of scenario 1. -/
theorem C6_single_file_roundtrip_witness :
    extract_code_blocks "Single:\n```python\nprint('ok')\n```" =
      [("python", "print('ok')")] ∧
    readBack
      (materialize "myapp" "Python" false
        (extract_code_blocks "Single:\n```python\nprint('ok')\n```")
        (fun _ => none)).writes
      (materialize "myapp" "Python" false
        (extract_code_blocks "Single:\n```python\nprint('ok')\n```")
        (fun _ => none)).saved_path = some "print('ok')" :=
  ⟨by decide,
    C6_single_file_roundtrip "Single:\n```python\nprint('ok')\n```" "myapp" "Python"
      (fun _ => none) "python" "print('ok')" (by decide)⟩

/-- Counterexample to C7: in the multi-file flow a caller-supplied filename
is used verbatim; "myfile" lacks the inferred ".py" extension and nothing
is appended to it. -/
theorem C7_override_written_verbatim :
    ((materialize "app" "Python" true [("python", "print(1)")]
        (fun _ => some "myfile")).writes).map Prod.fst = ["app/myfile"] ∧
    pyEndsWith "app/myfile" ".py" = false := by
  exact ⟨rfl, by decide⟩

/-- Legacy single-file filename fixup
(`App Generator/app_generator.py`, lines 279-282): append the inferred
extension only when the supplied name contains no dot at all. -/
def fixupFilename (filename ext : String) : String :=
  if !(pyEndsWith filename ext) then
    (if !(strContains filename ".") then filename ++ ext else filename)
  else filename

/-- C7 amended: the multi-file flow writes every caller-supplied filename
verbatim — it never appends or replaces an extension; only the legacy
single-file flow appends the inferred extension, and only when the
supplied name contains no dot, so an extension the caller chose is never
changed. -/
theorem C7_filename_handling_amended :
    (∀ (app lang code nm : String),
      ((materialize app "Python" true [(lang, code)] (fun _ => some nm)).writes).map
        Prod.fst = [pathJoin app nm]) ∧
    (∀ fn ext : String, strContains fn "." = true → fixupFilename fn ext = fn) ∧
    (∀ fn ext : String, pyEndsWith fn ext = false → strContains fn "." = false →
      fixupFilename fn ext = fn ++ ext) ∧
    (∀ fn ext : String, pyEndsWith fn ext = true → fixupFilename fn ext = fn) := by
  refine ⟨fun app lang code nm => rfl, ?_, ?_, ?_⟩
  · intro fn ext h
    cases he : pyEndsWith fn ext
    · simp [fixupFilename, he, h]
    · simp [fixupFilename, he]
  · intro fn ext h1 h2
    simp [fixupFilename, h1, h2]
  · intro fn ext h
    simp [fixupFilename, h]

/-- Witness for the amended C7 at concrete filenames. -/
theorem C7_filename_handling_amended_witness :
    strContains "foo.txt" "." = true ∧
    fixupFilename "foo.txt" ".py" = "foo.txt" ∧
    fixupFilename "foo" ".py" = "foo.py" ∧
    fixupFilename "x.py" ".py" = "x.py" :=
  ⟨by decide,
    C7_filename_handling_amended.2.1 "foo.txt" ".py" (by decide),
    C7_filename_handling_amended.2.2.1 "foo" ".py" (by decide) (by decide),
    C7_filename_handling_amended.2.2.2 "x.py" ".py" (by decide)⟩

/-! ### Refinement flow

The refine branch of `main` (`app_generator.py`, lines 411-466), from the
point where the gateway call has returned.  The state carries the files by
path and the registry file; the branch never calls `add_app_to_registry`
or `save_apps_registry`, so the registry component can only be passed
through unchanged.
-/

/-- State visible to the refinement flow. -/
structure RefineState where
  fs : String → Option String
  regFile : RegFile

/-- What the refinement flow reports to the user. -/
inductive RefineOutcome
  | updated
  | noReport
  | reportedFailure
deriving DecidableEq

/-- Embedding of lines 442-464: a `none` suggestion prints the failure
message; a suggestion without code blocks silently does nothing (the
`if new_code_blocks:` at line 455 has no else branch); a suggestion with
blocks, on explicit confirmation, overwrites exactly the selected app's
path with the first block's code. -/
def refineStep (st : RefineState) (path : String) (suggestion : Option String)
    (confirm : Bool) : RefineState × RefineOutcome :=
  match suggestion with
  | none => (st, RefineOutcome.reportedFailure)
  | some s =>
    match extract_code_blocks s with
    | [] => (st, RefineOutcome.noReport)
    | (_, code) :: _ =>
      if confirm then
        ({ fs := fun p => if p = path then some code else st.fs p,
           regFile := st.regFile }, RefineOutcome.updated)
      else (st, RefineOutcome.noReport)

/-- Counterexample to C9: a response that yields no code block is not
reported as a failed refinement — the flow is silent — although the file
is indeed left untouched.  The failure message appears only when the
gateway returned nothing at all. -/
theorem C9_no_block_is_silent :
    (refineStep ⟨fun _ => none, RegFile.absent⟩ "a.py" (some "no fences") true).2 =
      RefineOutcome.noReport ∧
    RefineOutcome.noReport ≠ RefineOutcome.reportedFailure ∧
    (refineStep ⟨fun _ => none, RegFile.absent⟩ "a.py" (some "no fences") true).1.fs
      "a.py" = none := by
  refine ⟨by decide, by decide, rfl⟩

/-- C9 amended: on explicit confirmation the refinement overwrites only the
existing primary file with the first extracted block — every other path and
the registry file are unchanged, and no registry record is added; when the
response yields no code block the flow leaves everything untouched but is
silent (no failure report); the failure report occurs exactly when the
gateway returned no response. -/
theorem C9_refine_overwrites_in_place (st : RefineState) (path : String) :
    (∀ (s lang code : String) (restBlocks : List (String × String)),
      extract_code_blocks s = (lang, code) :: restBlocks →
      (refineStep st path (some s) true).1.fs path = some code ∧
      (∀ q, q ≠ path → (refineStep st path (some s) true).1.fs q = st.fs q) ∧
      (refineStep st path (some s) true).1.regFile = st.regFile ∧
      (refineStep st path (some s) true).2 = RefineOutcome.updated) ∧
    (∀ s : String, extract_code_blocks s = [] →
      refineStep st path (some s) true = (st, RefineOutcome.noReport)) ∧
    refineStep st path none true = (st, RefineOutcome.reportedFailure) := by
  refine ⟨?_, ?_, rfl⟩
  · intro s lang code restBlocks hx
    simp only [refineStep, hx]
    refine ⟨?_, ?_, rfl, rfl⟩
    · simp
    · intro q hq
      simp only [if_true]
      rw [if_neg hq]
  · intro s hx
    simp only [refineStep, hx]

/-- Witness for the amended C9 at a concrete refinement. -/
theorem C9_refine_overwrites_in_place_witness :
    extract_code_blocks "x\n```py\na=2\n```" = [("py", "a=2")] ∧
    (refineStep ⟨fun _ => some "old", RegFile.absent⟩ "f.py"
        (some "x\n```py\na=2\n```") true).1.fs "f.py" = some "a=2" ∧
    extract_code_blocks "plain" = [] ∧
    refineStep ⟨fun _ => some "old", RegFile.absent⟩ "f.py" (some "plain") true =
      (⟨fun _ => some "old", RegFile.absent⟩, RefineOutcome.noReport) := by
  refine ⟨by decide, ?_, by decide, ?_⟩
  · exact ((C9_refine_overwrites_in_place ⟨fun _ => some "old", RegFile.absent⟩
      "f.py").1 "x\n```py\na=2\n```" "py" "a=2" [] (by decide)).1
  · exact (C9_refine_overwrites_in_place ⟨fun _ => some "old", RegFile.absent⟩
      "f.py").2.1 "plain" (by decide)
